import Mathlib

/-!
The program hello-rbac: access-control conditions and decisions.

A shallow embedding of `main.go`.  Go strings are modelled by Lean `String`s
(sequences of Unicode characters; the separator `:` and the decimal digits are
ASCII, so splitting and digit tests agree with Go's byte-wise operations on
UTF-8 text).  Output written with `fmt.Printf` is not modelled.  Go's `int` is
the 64-bit signed integer.

The conditions and `extract_uri_id` are embedded from `main.go`, with
`strings.Split` and `strconv.Atoi` after the Go standard library.  The pattern
matcher, the policy store and the decision engine belong to the authorization
library `main.go` imports, which is not in the repository: they are modelled
from the specification (§4.1, §4.3, §4.4).  Policies are passed to the store
by reference, as `main.go` does, over an explicit memory of policy variables.
-/

namespace strings

/-- Go `strings.Split` for a one-character separator, on character lists:
the input is cut at every occurrence of `sep`; the result always has one more
piece than there are separators. -/
def splitChars (sep : Char) : List Char → List (List Char)
  | [] => [[]]
  | c :: cs =>
    if c = sep then [] :: splitChars sep cs
    else
      match splitChars sep cs with
      | [] => [[c]]
      | p :: ps => (c :: p) :: ps

/-- Go `strings.Split(s, sep)` with a one-character separator. -/
def Split (s : String) (sep : Char) : List String :=
  (splitChars sep s.data).map String.mk

end strings

namespace strconv

/-- The two kinds of `*strconv.NumError`. -/
inductive NumError where
  | ErrSyntax
  | ErrRange
  deriving DecidableEq, Repr

/-- Width of Go's `int`. -/
def IntSize : Nat := 64

/-- Largest `uint64`. -/
def maxUint64 : Nat := 2 ^ 64 - 1

/-- The digit loop of `strconv.ParseUint` for base 10: `n` is the `uint64`
accumulator, `cutoff` the least number whose tenfold exceeds `maxUint64`,
`maxVal` the largest value of the requested width.  Arithmetic on the
accumulator wraps modulo `2 ^ 64` as in Go. -/
def parseUintLoop (cutoff maxVal : Nat) : List Char → Nat → Nat × Option NumError
  | [], n => (n, none)
  | c :: cs, n =>
    if 48 ≤ c.toNat ∧ c.toNat ≤ 57 then
      let d := c.toNat - 48
      if n ≥ cutoff then (maxVal, some .ErrRange)
      else
        let n10 := (n * 10) % 2 ^ 64
        let n1 := (n10 + d) % 2 ^ 64
        if n1 < n10 ∨ n1 > maxVal then (maxVal, some .ErrRange)
        else parseUintLoop cutoff maxVal cs n1
    else (0, some .ErrSyntax)

/-- Go `strconv.ParseUint(s, 10, bitSize)`. -/
def ParseUint (s : List Char) (bitSize : Nat) : Nat × Option NumError :=
  if s = [] then (0, some .ErrSyntax)
  else
    let bitSize := if bitSize = 0 then IntSize else bitSize
    let cutoff := maxUint64 / 10 + 1
    let maxVal := 2 ^ bitSize - 1
    parseUintLoop cutoff maxVal s 0

/-- Conversion `int64(x)` of an integer value: wrap into the signed 64-bit
range. -/
def toInt64 (z : Int) : Int := (z + 2 ^ 63) % 2 ^ 64 - 2 ^ 63

/-- Go `strconv.ParseInt(s, 10, bitSize)`. -/
def ParseInt (s : List Char) (bitSize : Nat) : Int × Option NumError :=
  if s = [] then (0, some .ErrSyntax)
  else
    let neg := s.head? = some '-'
    let s1 := if s.head? = some '+' ∨ s.head? = some '-' then s.tail else s
    let (un, err) := ParseUint s1 bitSize
    if err = some .ErrSyntax then (0, err)
    else
      let bitSize := if bitSize = 0 then IntSize else bitSize
      let cutoff : Nat := 2 ^ (bitSize - 1)
      if ¬ neg ∧ un ≥ cutoff then (toInt64 (cutoff - 1 : Nat), some .ErrRange)
      else if neg ∧ un > cutoff then (toInt64 (-(cutoff : Int)), some .ErrRange)
      else
        let n := toInt64 un
        (if neg then toInt64 (-n) else n, none)

/-- Go `strconv.Atoi(s)`: `ParseInt(s, 10, 0)` converted to `int`. -/
def Atoi (s : String) : Int × Option NumError :=
  ParseInt s.data 0

/-! Spec-side reading of integer literals, against which `Atoi` is proved. -/

/-- Decimal digit test on a character code. -/
def isDigit (c : Char) : Bool := decide (48 ≤ c.toNat ∧ c.toNat ≤ 57)

/-- Value of a digit string read after the number `n`. -/
def valFrom (n : Nat) (ds : List Char) : Nat :=
  ds.foldl (fun a c => a * 10 + (c.toNat - 48)) n

/-- The natural number denoted by a non-empty string of decimal digits. -/
def digitsValue? (ds : List Char) : Option Nat :=
  if ds ≠ [] ∧ ds.all isDigit then some (valFrom 0 ds) else none

/-- The integer a base-10 literal denotes: an optional sign `+` or `-`
followed by one or more decimal digits; `none` for any other text.  This is
the mathematical reading of "parses as a base-10 integer", with no bound on
the size. -/
def literalValue (t : String) : Option Int :=
  match t.data with
  | [] => none
  | c :: cs =>
    if c = '+' then (digitsValue? cs).map fun (v : Nat) => Int.ofNat v
    else if c = '-' then (digitsValue? cs).map fun (v : Nat) => -Int.ofNat v
    else (digitsValue? (c :: cs)).map fun (v : Nat) => Int.ofNat v

/-- The values of Go's 64-bit `int`. -/
def fitsInt (n : Int) : Prop := -9223372036854775808 ≤ n ∧ n ≤ 9223372036854775807

instance (n : Int) : Decidable (fitsInt n) := by unfold fitsInt; infer_instance

end strconv

/-! ## Mock database (`main.go`, lines 11-54) -/

/-- A row of the squad membership table: the user `UserID` is a member of the
squad `SquadID`. -/
structure DBSquadMembership where
  ID : Int
  SquadID : Int
  UserID : Int
  deriving DecidableEq, Repr

/-- The mock squad membership database. -/
def squadMemberships : List DBSquadMembership :=
  [ ⟨0, 0, 0⟩,  -- user:Foo -> squad:All Squad
    ⟨1, 0, 1⟩,  -- user:Bar -> squad:All Squad
    ⟨2, 0, 2⟩,  -- user:Bazz -> squad:All Squad
    ⟨3, 1, 0⟩,  -- user:Foo -> squad:Exclusive Squad
    ⟨4, 1, 1⟩ ] -- user:Bar -> squad:Exclusive Squad

/-! ## Requests and results -/

/-- A dynamically typed Go value (`interface{}`), as held in a request's
context. -/
inductive Value where
  | nil
  | str (s : String)
  | int (n : Int)
  | bool (b : Bool)
  deriving DecidableEq, Repr

/-- Modelled from the spec: the request record (§3), under the field names
`main.go` gives it (`ladon.Request`). -/
structure Request where
  Subject : String
  Action : String
  Resource : String
  Context : List (String × Value)
  deriving DecidableEq, Repr

/-- The result of running a piece of Go code: it returns a value, or it
panics (here only an index out of range could). -/
inductive Outcome (α : Type) where
  | ret (v : α)
  | panicked
  deriving DecidableEq, Repr

/-- Go slice indexing `parts[i]`, which panics when `i` is out of range. -/
def index (parts : List String) (i : Nat) : Outcome String :=
  match parts[i]? with
  | some s => .ret s
  | none => .panicked

/-! ## Permission conditions (`main.go`, lines 56-123) -/

/-- The three errors `extract_uri_id` builds with `fmt.Errorf`. -/
inductive URIError where
  | notThreeParts
  | notModel
  | badID (e : strconv.NumError)
  deriving DecidableEq, Repr

/-- The function `extract_uri_id` of `main.go`: the pair `(id, err)` it
returns, `err = none` standing for Go's `nil` error. -/
def extract_uri_id (uri : String) : Outcome (Int × Option URIError) :=
  let parts := strings.Split uri ':'
  if parts.length ≠ 3 then .ret (-1, some .notThreeParts)
  else
    match index parts 0 with
    | .panicked => .panicked
    | .ret p0 =>
      if p0 ≠ "model" then .ret (-1, some .notModel)
      else
        match index parts 2 with
        | .panicked => .panicked
        | .ret p2 =>
          match strconv.Atoi p2 with
          | (_, some e) => .ret (-1, some (.badID e))
          | (id, none) => .ret (id, none)

/-- The condition type `SelfCondition`. -/
structure SelfCondition where
  deriving DecidableEq, Repr

/-- The condition type `SquadMemberCondition`. -/
structure SquadMemberCondition where
  deriving DecidableEq, Repr

/-- Method `SelfCondition.GetName`. -/
def SelfCondition.GetName (_ : SelfCondition) : String := "SelfCondition"

/-- Method `SelfCondition.Fulfills`: the subject of the request is the
resource, compared as strings. -/
def SelfCondition.Fulfills (_ : SelfCondition) (_ : Value) (req : Request) : Bool :=
  decide (req.Subject = req.Resource)

/-- Method `SquadMemberCondition.GetName`. -/
def SquadMemberCondition.GetName (_ : SquadMemberCondition) : String :=
  "SquadMemberCondition"

/-- The loop over `squadMemberships` in `SquadMemberCondition.Fulfills`. -/
def membershipLoop : List DBSquadMembership → Int → Int → Bool
  | [], _, _ => false
  | membership :: rest, squadID, userID =>
    if membership.SquadID = squadID ∧ membership.UserID = userID then true
    else membershipLoop rest squadID userID

/-- Method `SquadMemberCondition.Fulfills`: the id of the subject is a member
of the squad the resource names, by `squadMemberships`. -/
def SquadMemberCondition.Fulfills (_ : SquadMemberCondition) (_ : Value) (req : Request) :
    Outcome Bool :=
  match extract_uri_id req.Subject with
  | .panicked => .panicked
  | .ret (_, some _) => .ret false
  | .ret (userID, none) =>
    match extract_uri_id req.Resource with
    | .panicked => .panicked
    | .ret (_, some _) => .ret false
    | .ret (squadID, none) => .ret (membershipLoop squadMemberships squadID userID)

/-- The conditions of this program, as values of the condition interface
(`ladon.Condition`). -/
inductive Condition where
  | self (c : SelfCondition)
  | squadMember (c : SquadMemberCondition)
  deriving DecidableEq, Repr

/-- Interface method `GetName`. -/
def Condition.GetName : Condition → String
  | .self c => c.GetName
  | .squadMember c => c.GetName

/-- Interface method `Fulfills`. -/
def Condition.Fulfills : Condition → Value → Request → Outcome Bool
  | .self c, v, req => .ret (c.Fulfills v req)
  | .squadMember c, v, req => c.Fulfills v req

/-! ## Spec-side reading of URIs -/

/-- A URI is well formed, with id `n`: it is `model:<kind>:<t>` for a
colon-free kind and a base-10 literal `t` denoting `n`. -/
def WellFormedURI (uri : String) (n : Int) : Prop :=
  ∃ kind t : String, uri = "model:" ++ kind ++ ":" ++ t ∧ ':' ∉ kind.data ∧
    strconv.literalValue t = some n

/-- A URI is malformed in one of the three ways the specification lists: it
does not split on `:` into exactly three parts, or its first part is not
`model`, or its third part is no base-10 literal of a Go `int`. -/
def MalformedURI (uri : String) : Prop :=
  (strings.Split uri ':').length ≠ 3 ∨
  (strings.Split uri ':')[0]? ≠ some "model" ∨
  ∀ t, (strings.Split uri ':')[2]? = some t →
    ∀ n, ¬ (strconv.literalValue t = some n ∧ strconv.fitsInt n)

/-! ## Pattern matcher (specification §4.1) -/

/-- Modelled from the spec: the regular expressions a pattern compiles to.
The pattern matcher is part of the authorization library, which is not in the
repository.  `any` is the fragment `.`, which as in Go's `regexp` matches
every character but the newline. -/
inductive Regex where
  | empty
  | eps
  | chr (c : Char)
  | any
  | alt (a b : Regex)
  | seq (a b : Regex)
  | star (a : Regex)
  deriving DecidableEq, Repr

namespace Regex

/-- Modelled from the spec: whether the expression matches the empty
word. -/
def nullable : Regex → Bool
  | empty => false
  | eps => true
  | chr _ => false
  | any => false
  | alt a b => a.nullable || b.nullable
  | seq a b => a.nullable && b.nullable
  | star _ => true

/-- Modelled from the spec: the expression for what may follow the
character `c`. -/
def deriv : Regex → Char → Regex
  | empty, _ => empty
  | eps, _ => empty
  | chr d, c => if d = c then eps else empty
  | any, c => if c = '\n' then empty else eps
  | alt a b, c => alt (a.deriv c) (b.deriv c)
  | seq a b, c =>
    if a.nullable then alt (seq (a.deriv c) b) (b.deriv c) else seq (a.deriv c) b
  | star a, c => seq (a.deriv c) (star a)

/-- Modelled from the spec: anchored matching of a whole word. -/
def rmatch : Regex → List Char → Bool
  | r, [] => r.nullable
  | r, c :: cs => (r.deriv c).rmatch cs

/-- Modelled from the spec: the concatenation of a list of expressions. -/
def seqOf : List Regex → Regex
  | [] => eps
  | r :: rs => seq r (seqOf rs)

/-- The expression for the literal text `w` followed by `k`: the shape
`compileAux` gives to text outside the delimiters. -/
def lits (w : List Char) (k : Regex) : Regex :=
  w.foldr (fun c r => seq (chr c) r) k

end Regex

/-- Modelled from the spec: parser state for one parenthesis level of a
regular-expression fragment: the finished alternatives and the items of the
current one, last item first. -/
structure Frame where
  alts : List Regex
  items : List Regex
  deriving DecidableEq, Repr

/-- Modelled from the spec: append an item to the current alternative. -/
def Frame.push (f : Frame) (r : Regex) : Frame :=
  { f with items := r :: f.items }

/-- Modelled from the spec: the expression of a finished parenthesis
level. -/
def Frame.close (f : Frame) : Regex :=
  f.alts.foldr Regex.alt (Regex.seqOf f.items.reverse)

/-- Modelled from the spec: parser of the regular-expression fragment between
the delimiters.  The fragment language is: literal characters, `.`, grouping
with parentheses, alternation `|`, the operators `*`, `+`, `?` written after an item, and a
backslash before a non-alphanumeric character to take it literally; anything
else is a compilation failure (`none`). -/
def parseFragment (esc : Bool) : List Char → Frame → List Frame → Option Regex
  | [], f, stack =>
    if esc then none
    else
      match stack with
      | [] => some f.close
      | _ :: _ => none
  | c :: cs, f, stack =>
    if esc then
      if c.isAlphanum then none else parseFragment false cs (f.push (.chr c)) stack
    else if c = '\\' then parseFragment true cs f stack
    else if c = '(' then parseFragment false cs ⟨[], []⟩ (f :: stack)
    else if c = ')' then
      match stack with
      | [] => none
      | g :: stack1 => parseFragment false cs (g.push f.close) stack1
    else if c = '|' then
      parseFragment false cs ⟨f.alts ++ [Regex.seqOf f.items.reverse], []⟩ stack
    else if c = '*' then
      match f.items with
      | [] => none
      | a :: rest => parseFragment false cs { f with items := .star a :: rest } stack
    else if c = '+' then
      match f.items with
      | [] => none
      | a :: rest => parseFragment false cs { f with items := .seq a (.star a) :: rest } stack
    else if c = '?' then
      match f.items with
      | [] => none
      | a :: rest => parseFragment false cs { f with items := .alt a .eps :: rest } stack
    else if c = '.' then parseFragment false cs (f.push .any) stack
    else if c = '[' ∨ c = ']' ∨ c = '{' ∨ c = '}' ∨ c = '^' ∨ c = '$' then none
    else parseFragment false cs (f.push (.chr c)) stack

/-- Modelled from the spec: compilation of a pattern.  Text outside the
delimiters `<` and `>` is literal, each `<expr>` is replaced by the regular
expression `expr`; `frag` holds the fragment being read (last character
first) while inside delimiters.  An unmatched delimiter or a malformed
fragment is a compilation failure. -/
def compileAux : List Char → Option (List Char) → Option Regex
  | [], none => some .eps
  | [], some _ => none
  | c :: cs, none =>
    if c = '<' then compileAux cs (some [])
    else if c = '>' then none
    else (compileAux cs none).map (Regex.seq (.chr c))
  | c :: cs, some frag =>
    if c = '>' then
      match parseFragment false frag.reverse ⟨[], []⟩ [], compileAux cs none with
      | some r, some k => some (.seq r k)
      | _, _ => none
    else compileAux cs (some (c :: frag))

/-- Modelled from the spec: the regular expression of a pattern, anchored at
both ends by the use of whole-word matching. -/
def compile (pattern : String) : Option Regex :=
  compileAux pattern.data none

/-- Modelled from the spec: the contract `matches(pattern, value)` of the
pattern matcher. -/
def patternMatches (pattern value : String) : Bool :=
  match compile pattern with
  | some r => r.rmatch value.data
  | none => false

/-! ## Policies, policy store and decision engine (specification §3, §4.3, §4.4) -/

/-- Modelled from the spec: the effect of a policy (§3; `ladon.AllowAccess` in
`main.go`). -/
inductive Effect where
  | Allow
  | Deny
  deriving DecidableEq, Repr

/-- Modelled from the spec: the policy record (§3), under the field names
`main.go` gives it (`ladon.DefaultPolicy`); `Conditions` maps a name to a
condition. -/
structure DefaultPolicy where
  ID : String
  Description : String
  Subjects : List String
  Resources : List String
  Actions : List String
  Effect : Effect
  Conditions : List (String × Condition)
  deriving DecidableEq, Repr

/-- Modelled from the spec: the outcome of `isAllowed`. -/
inductive Decision where
  | Allowed
  | Denied (reason : String)
  deriving DecidableEq, Repr

/-- Modelled from the spec: the reason of a default denial. -/
def noMatchingPolicy : String := "no matching policy"

/-- Modelled from the spec: the reason of a denial by a satisfied Deny
policy; the specification only asks that it differ from the default
denial's. -/
def deniedByPolicy : String := "denied by policy"

/-- Modelled from the spec: a policy applies to a request when at least one
pattern of each of its three sequences matches the corresponding field. -/
def patternsApply (p : DefaultPolicy) (r : Request) : Bool :=
  p.Subjects.any (fun pat => patternMatches pat r.Subject) &&
  p.Resources.any (fun pat => patternMatches pat r.Resource) &&
  p.Actions.any (fun pat => patternMatches pat r.Action)

/-- The context value under a key, `nil` when the key is absent
(`r.Context[key]`). -/
def contextValue (ctx : List (String × Value)) (key : String) : Value :=
  (ctx.lookup key).getD .nil

/-- Modelled from the spec: every attached condition holds for the request.
A panic of a condition ends the evaluation. -/
def conditionsHold : List (String × Condition) → Request → Outcome Bool
  | [], _ => .ret true
  | (key, c) :: rest, r =>
    match c.Fulfills (contextValue r.Context key) r with
    | .panicked => .panicked
    | .ret false => .ret false
    | .ret true => conditionsHold rest r

/-- Modelled from the spec: the satisfied policies among the candidates:
those whose patterns apply and whose conditions all hold. -/
def satisfiedPolicies : List DefaultPolicy → Request → Outcome (List DefaultPolicy)
  | [], _ => .ret []
  | p :: ps, r =>
    if patternsApply p r then
      match conditionsHold p.Conditions r with
      | .panicked => .panicked
      | .ret b =>
        match satisfiedPolicies ps r with
        | .panicked => .panicked
        | .ret rest => .ret (if b then p :: rest else rest)
    else satisfiedPolicies ps r

/-- Modelled from the spec: deny-overrides, default-deny combination of the
satisfied policies. -/
def combine (satisfied : List DefaultPolicy) : Decision :=
  if satisfied.any (fun p => decide (p.Effect = .Deny)) then .Denied deniedByPolicy
  else if satisfied.any (fun p => decide (p.Effect = .Allow)) then .Allowed
  else .Denied noMatchingPolicy

/-- Modelled from the spec: a policy is satisfied by a request when its
patterns apply and every one of its conditions holds. -/
def Satisfied (p : DefaultPolicy) (r : Request) : Prop :=
  patternsApply p r = true ∧
  ∀ kc ∈ p.Conditions, kc.2.Fulfills (contextValue r.Context kc.1) r = .ret true

/-- Modelled from the spec: a policy's patterns are non-empty and all
compile. -/
def validPolicy (p : DefaultPolicy) : Bool :=
  !p.Subjects.isEmpty && !p.Resources.isEmpty && !p.Actions.isEmpty &&
  (p.Subjects ++ p.Resources ++ p.Actions).all (fun pat => (compile pat).isSome)

/-- A memory address. -/
abbrev Addr := Nat

/-- The variables of type `ladon.DefaultPolicy` that live in memory, by
address; the binding nearest the head is the current one. -/
abbrev Heap := List (Addr × DefaultPolicy)

/-- Assignment to the variable at an address. -/
def Heap.write (h : Heap) (a : Addr) (p : DefaultPolicy) : Heap := (a, p) :: h

/-- The value of the variable at an address. -/
def Heap.read (h : Heap) (a : Addr) : Option DefaultPolicy := List.lookup a h

/-- Modelled from the spec: the in-memory policy store.  `main.go` hands
`Create` the pointer `&policy`, and the store keeps what it is handed: each
entry maps a policy id to a reference to the policy. -/
structure MemoryManager where
  Policies : List (String × Addr)
  deriving DecidableEq, Repr

/-- Modelled from the spec: the empty store (`manager.NewMemoryManager()`). -/
def NewMemoryManager : MemoryManager := ⟨[]⟩

/-- Modelled from the spec: the errors of `create` (§4.3). -/
inductive CreateError where
  | DuplicateID
  | InvalidPolicy
  deriving DecidableEq, Repr

/-- Modelled from the spec: `create(policy)`.  It rejects a policy whose id
is already in the store (`DuplicateID`) or whose pattern sequences are empty
or do not compile (`InvalidPolicy`), and otherwise records the reference under
the policy's id. -/
def MemoryManager.Create (m : MemoryManager) (heap : Heap) (policy : Addr) :
    Except CreateError MemoryManager :=
  match heap.read policy with
  | none => .error .InvalidPolicy
  | some p =>
    if (m.Policies.lookup p.ID).isSome then .error .DuplicateID
    else if !validPolicy p then .error .InvalidPolicy
    else .ok ⟨m.Policies ++ [(p.ID, policy)]⟩

/-- Modelled from the spec: `findPoliciesMatching`, every stored policy, read
through its reference. -/
def MemoryManager.findPolicies (m : MemoryManager) (heap : Heap) : List DefaultPolicy :=
  m.Policies.filterMap (fun e => heap.read e.2)

/-- Modelled from the spec: the policy stored under an id. -/
def MemoryManager.get (m : MemoryManager) (heap : Heap) (id : String) : Option DefaultPolicy :=
  (m.Policies.lookup id).bind heap.read

/-- Modelled from the spec: the decision engine (`ladon.Ladon` in `main.go`),
which owns its policy store. -/
structure Ladon where
  Manager : MemoryManager
  deriving DecidableEq, Repr

/-- The program state `main` works on: the memory holding policy variables
and the warden. -/
structure World where
  heap : Heap
  warden : Ladon
  deriving DecidableEq, Repr

/-- Modelled from the spec: `isAllowed(request)`, the four steps of
specification §4.4. -/
def Ladon.IsAllowed (warden : Ladon) (heap : Heap) (r : Request) : Outcome Decision :=
  match satisfiedPolicies (warden.Manager.findPolicies heap) r with
  | .panicked => .panicked
  | .ret satisfied => .ret (combine satisfied)

/-! ## `main` (lines 148-219) -/

/-- The policy "Only user can update their profile". -/
def userPolicy (id : String) : DefaultPolicy :=
  { ID := id
    Description := "Only user can update their profile"
    Subjects := ["model:user:<.*>"]
    Resources := ["model:user:<.*>"]
    Actions := ["service:user:set"]
    Effect := .Allow
    Conditions := [("self", .self {})] }

/-- The policy "Only squad members can view squad info". -/
def squadPolicy (id : String) : DefaultPolicy :=
  { ID := id
    Description := "Only squad members can view squad info"
    Subjects := ["model:user:<.*>"]
    Resources := ["model:squad:<.*>"]
    Actions := ["service:squad:get"]
    Effect := .Allow
    Conditions := [("member", .squadMember {})] }

/-- The slice `policies` of `main`; `id1` and `id2` are the two ids drawn
with `uuid.NewV4().String()`. -/
def policies (id1 id2 : String) : List DefaultPolicy :=
  [userPolicy id1, squadPolicy id2]

/-- The loop `for _, policy := range policies` of `main`.  The loop declares
ONE variable `policy`, at the address `policyVar`; each iteration assigns the
next element to it and passes its address `&policy` to `Create`.  (This is
the meaning of a range loop in Go before version 1.22, and in any program
without a `go.mod` asking for 1.22 or later, as is the case here.)  A failing
`Create` ends `main`. -/
def loadLoop (policyVar : Addr) : List DefaultPolicy → World → Except CreateError World
  | [], w => .ok w
  | element :: rest, w =>
    let heap := w.heap.write policyVar element
    match w.warden.Manager.Create heap policyVar with
    | .error e => .error e
    | .ok m => loadLoop policyVar rest { heap := heap, warden := { Manager := m } }

/-- The state of `main` after the loading loop, before the first
`test_request`. -/
def mainLoaded (id1 id2 : String) : Except CreateError World :=
  loadLoop 0 (policies id1 id2) { heap := [], warden := { Manager := NewMemoryManager } }

/-- The function `test_request`, without its printing: the decision of the
warden on the request. -/
def test_request (w : World) (req : Request) : Outcome Decision :=
  w.warden.IsAllowed w.heap req

/-- The whole of `main` up to one `test_request`: load the policies, then
decide the request; `none` when loading fails. -/
def mainDecision (id1 id2 : String) (req : Request) : Option (Outcome Decision) :=
  match mainLoaded id1 id2 with
  | .error _ => none
  | .ok w => some (test_request w req)
namespace strconv

theorem le_valFrom (ds : List Char) (n : Nat) : n ≤ valFrom n ds := by
  induction ds generalizing n with
  | nil => simp [valFrom]
  | cons c cs ih =>
    have h := ih (n * 10 + (c.toNat - 48))
    simp only [valFrom, List.foldl_cons] at h ⊢
    omega

theorem parseUintLoop_ok (ds : List Char) (n v : Nat) (hn : n ≤ 18446744073709551615) :
    parseUintLoop 1844674407370955162 18446744073709551615 ds n = (v, none) ↔
      (∀ c ∈ ds, isDigit c = true) ∧ valFrom n ds = v ∧ v ≤ 18446744073709551615 := by
  induction ds generalizing n with
  | nil =>
    simp only [parseUintLoop, valFrom, List.foldl_nil, Prod.mk.injEq, and_true,
      List.not_mem_nil, false_implies, implies_true, true_and]
    constructor
    · intro h; subst h; exact ⟨rfl, hn⟩
    · intro h; exact h.1
  | cons c cs ih =>
    unfold parseUintLoop
    have hstep : valFrom n (c :: cs) = valFrom (n * 10 + (c.toNat - 48)) cs := by
      simp [valFrom]
    by_cases hd : 48 ≤ c.toNat ∧ c.toNat ≤ 57
    · have hmono := le_valFrom cs (n * 10 + (c.toNat - 48))
      have hdig : isDigit c = true := by simp [isDigit, hd]
      rw [if_pos hd, hstep]
      by_cases hcut : n ≥ 1844674407370955162
      · rw [if_pos hcut]
        constructor
        · intro h; simp at h
        · rintro ⟨_, h1, h2⟩; omega
      · rw [if_neg hcut]
        have h10 : (n * 10) % 2 ^ 64 = n * 10 := by
          apply Nat.mod_eq_of_lt
          norm_num
          omega
        simp only [h10]
        by_cases hov : n * 10 + (c.toNat - 48) ≤ 18446744073709551615
        · have h1 : (n * 10 + (c.toNat - 48)) % 2 ^ 64 = n * 10 + (c.toNat - 48) := by
            apply Nat.mod_eq_of_lt
            norm_num
            omega
          simp only [h1]
          have hno : ¬ (n * 10 + (c.toNat - 48) < n * 10 ∨
              n * 10 + (c.toNat - 48) > 18446744073709551615) := by omega
          rw [if_neg hno, ih _ hov]
          simp [hdig]
        · have h1 : (n * 10 + (c.toNat - 48)) % 2 ^ 64 =
              n * 10 + (c.toNat - 48) - 18446744073709551616 := by
            norm_num
            omega
          simp only [h1]
          have hyes : (n * 10 + (c.toNat - 48) - 18446744073709551616 < n * 10 ∨
              n * 10 + (c.toNat - 48) - 18446744073709551616 > 18446744073709551615) := by
            omega
          rw [if_pos hyes]
          constructor
          · intro h; simp at h
          · rintro ⟨_, h2, h3⟩; omega
    · rw [if_neg hd]
      have hdig : isDigit c = false := by simp [isDigit, hd]
      constructor
      · intro h; simp at h
      · rintro ⟨h, _⟩
        have := h c (List.mem_cons_self _ _)
        simp [hdig] at this

theorem parseUintLoop_err (ds : List Char) (n u : Nat) (e : NumError)
    (h : parseUintLoop 1844674407370955162 18446744073709551615 ds n = (u, some e)) :
    e = .ErrSyntax ∨ (e = .ErrRange ∧ u = 18446744073709551615) := by
  induction ds generalizing n with
  | nil => simp [parseUintLoop] at h
  | cons c cs ih =>
    unfold parseUintLoop at h
    split at h
    · simp only at h
      split at h
      · simp only [Prod.mk.injEq, Option.some.injEq] at h
        exact Or.inr ⟨h.2.symm, h.1.symm⟩
      · split at h
        · simp only [Prod.mk.injEq, Option.some.injEq] at h
          exact Or.inr ⟨h.2.symm, h.1.symm⟩
        · exact ih _ h
    · simp only [Prod.mk.injEq, Option.some.injEq] at h
      exact Or.inl h.2.symm

theorem ParseUint_ok (ds : List Char) (v : Nat) :
    ParseUint ds 0 = (v, none) ↔ digitsValue? ds = some v ∧ v ≤ 18446744073709551615 := by
  by_cases hds : ds = []
  · subst hds; simp [ParseUint, digitsValue?]
  · have h := parseUintLoop_ok ds 0 v (by omega)
    simp only [ParseUint, hds, if_false, IntSize, maxUint64, if_true]
    norm_num
    rw [h]
    simp [digitsValue?, hds, and_assoc]

theorem ParseUint_err (ds : List Char) (u : Nat) (e : NumError)
    (h : ParseUint ds 0 = (u, some e)) :
    e = .ErrSyntax ∨ (e = .ErrRange ∧ u = 18446744073709551615) := by
  by_cases hds : ds = []
  · subst hds
    simp [ParseUint] at h
    exact Or.inl h.2.symm
  · simp only [ParseUint, hds, if_false, IntSize, maxUint64, if_true] at h
    norm_num at h
    exact parseUintLoop_err ds 0 u e h

theorem toInt64_small (z : Int) (h : fitsInt z) : toInt64 z = z := by
  unfold fitsInt at h
  unfold toInt64
  norm_num
  omega

/-- The unsigned part of `ParseInt` for a non-negative literal. -/
theorem parseInt_nonneg (ds : List Char) (n : Int) :
    (if (ParseUint ds 0).2 = some NumError.ErrSyntax then ((0 : Int), (ParseUint ds 0).2)
      else if (ParseUint ds 0).1 ≥ 2 ^ (64 - 1) then
        (toInt64 ((2 ^ (64 - 1) - 1 : Nat) : Int), some NumError.ErrRange)
      else (toInt64 ((ParseUint ds 0).1 : Int), none)) = (n, none) ↔
    (digitsValue? ds).map (fun (v : Nat) => Int.ofNat v) = some n ∧ fitsInt n := by
  rcases hP : ParseUint ds 0 with ⟨un, err⟩
  cases err with
  | none =>
    have h := (ParseUint_ok ds un).1 hP
    simp only [reduceCtorEq, if_false, h.1, Option.map_some', Option.some.injEq]
    by_cases hbig : un ≥ 2 ^ (64 - 1)
    · rw [if_pos hbig]
      constructor
      · intro h1; simp at h1
      · rintro ⟨h1, h2⟩
        subst h1
        unfold fitsInt at h2
        norm_num at hbig
        simp only [Int.ofNat_eq_coe] at h2
        omega
    · rw [if_neg hbig]
      norm_num at hbig
      have hfit : fitsInt (un : Int) := by unfold fitsInt; omega
      rw [toInt64_small _ hfit]
      simp only [Prod.mk.injEq, and_true, Int.ofNat_eq_coe]
      constructor
      · intro h1; subst h1; exact ⟨rfl, hfit⟩
      · intro h1; exact h1.1
  | some e =>
    have hno : ∀ v, ¬ (digitsValue? ds = some v ∧ v ≤ 18446744073709551615) := by
      intro v hv
      have := (ParseUint_ok ds v).2 hv
      rw [hP] at this
      simp at this
    rcases ParseUint_err ds un e hP with he | ⟨he, hu⟩
    · subst he
      simp only [if_true, Prod.mk.injEq, reduceCtorEq, and_false, false_iff, not_and]
      intro h1 h2
      cases hdv : digitsValue? ds with
      | none => simp [hdv] at h1
      | some v =>
        simp only [hdv, Option.map_some', Option.some.injEq, Int.ofNat_eq_coe] at h1
        have := hno v
        unfold fitsInt at h2
        simp only [hdv, true_and] at this
        omega
    · subst he; subst hu
      have hbig : (18446744073709551615 : Nat) ≥ 2 ^ (64 - 1) := by norm_num
      have hne : ¬ (some NumError.ErrRange = some NumError.ErrSyntax) := by decide
      rw [if_neg hne, if_pos hbig]
      simp only [Prod.mk.injEq, reduceCtorEq, and_false, false_iff, not_and]
      intro h1 h2
      cases hdv : digitsValue? ds with
      | none => simp [hdv] at h1
      | some v =>
        simp only [hdv, Option.map_some', Option.some.injEq, Int.ofNat_eq_coe] at h1
        have := hno v
        unfold fitsInt at h2
        simp only [hdv, true_and] at this
        omega

/-- The unsigned part of `ParseInt` for a literal with a minus sign. -/
theorem parseInt_neg (ds : List Char) (n : Int) :
    (if (ParseUint ds 0).2 = some NumError.ErrSyntax then ((0 : Int), (ParseUint ds 0).2)
      else if (ParseUint ds 0).1 > 2 ^ (64 - 1) then
        (toInt64 (-((2 ^ (64 - 1) : Nat) : Int)), some NumError.ErrRange)
      else (toInt64 (-toInt64 ((ParseUint ds 0).1 : Int)), none)) = (n, none) ↔
    (digitsValue? ds).map (fun (v : Nat) => -Int.ofNat v) = some n ∧ fitsInt n := by
  rcases hP : ParseUint ds 0 with ⟨un, err⟩
  cases err with
  | none =>
    have h := (ParseUint_ok ds un).1 hP
    simp only [reduceCtorEq, if_false, h.1, Option.map_some', Option.some.injEq]
    by_cases hbig : un > 2 ^ (64 - 1)
    · rw [if_pos hbig]
      constructor
      · intro h1; simp at h1
      · rintro ⟨h1, h2⟩
        subst h1
        unfold fitsInt at h2
        norm_num at hbig
        simp only [Int.ofNat_eq_coe] at h2
        omega
    · rw [if_neg hbig]
      norm_num at hbig
      have hval : toInt64 (-toInt64 (un : Int)) = -(un : Int) := by
        unfold toInt64
        norm_num
        omega
      have hfit : fitsInt (-(un : Int)) := by unfold fitsInt; omega
      rw [hval]
      simp only [Prod.mk.injEq, and_true, Int.ofNat_eq_coe]
      constructor
      · intro h1; subst h1; exact ⟨rfl, hfit⟩
      · intro h1; exact h1.1
  | some e =>
    have hno : ∀ v, ¬ (digitsValue? ds = some v ∧ v ≤ 18446744073709551615) := by
      intro v hv
      have := (ParseUint_ok ds v).2 hv
      rw [hP] at this
      simp at this
    have hgen : ¬ ((digitsValue? ds).map (fun (v : Nat) => -Int.ofNat v) = some n ∧
        fitsInt n) := by
      rintro ⟨h1, h2⟩
      cases hdv : digitsValue? ds with
      | none => simp [hdv] at h1
      | some v =>
        simp only [hdv, Option.map_some', Option.some.injEq, Int.ofNat_eq_coe] at h1
        have := hno v
        unfold fitsInt at h2
        simp only [hdv, true_and] at this
        omega
    rcases ParseUint_err ds un e hP with he | ⟨he, hu⟩
    · subst he
      simp only [if_true, Prod.mk.injEq, reduceCtorEq, and_false, false_iff]
      exact hgen
    · subst he; subst hu
      have hbig : (18446744073709551615 : Nat) > 2 ^ (64 - 1) := by norm_num
      have hne : ¬ (some NumError.ErrRange = some NumError.ErrSyntax) := by decide
      rw [if_neg hne, if_pos hbig]
      simp only [Prod.mk.injEq, reduceCtorEq, and_false, false_iff]
      exact hgen

theorem ParseInt_ok (s : List Char) (n : Int) :
    ParseInt s 0 = (n, none) ↔ literalValue ⟨s⟩ = some n ∧ fitsInt n := by
  cases s with
  | nil => simp [ParseInt, literalValue]
  | cons c cs =>
    by_cases hplus : c = '+'
    · subst hplus
      have hne : ¬ ('+' = '-') := by decide
      simp only [ParseInt, literalValue, List.head?_cons, List.tail_cons, if_true, true_or,
        reduceCtorEq, if_false, IntSize, Option.some.injEq, hne, not_false_eq_true, true_and,
        false_and]
      exact parseInt_nonneg cs n
    · by_cases hminus : c = '-'
      · subst hminus
        have hne : ¬ ('-' = '+') := by decide
        simp only [ParseInt, literalValue, List.head?_cons, List.tail_cons, if_true, true_or,
          reduceCtorEq, if_false, IntSize, Option.some.injEq, hne, not_false_eq_true, true_and,
          false_and, or_true, not_true_eq_false]
        exact parseInt_neg cs n
      · have h1 : ¬ ('+' = c) := fun h => hplus h.symm
        have h2 : ¬ ('-' = c) := fun h => hminus h.symm
        simp only [ParseInt, literalValue, List.head?_cons, if_true, true_or,
          reduceCtorEq, if_false, IntSize, Option.some.injEq, not_false_eq_true, true_and,
          false_and, hplus, hminus, or_self, h1, h2]
        exact parseInt_nonneg (c :: cs) n

/-- The function `Atoi` succeeds exactly on the base-10 literals whose value is
a Go `int`, and then returns that value. -/
theorem Atoi_ok_iff (t : String) (n : Int) :
    Atoi t = (n, none) ↔ literalValue t = some n ∧ fitsInt n := by
  unfold Atoi
  exact ParseInt_ok t.data n

end strconv

/-! ## Splitting -/

namespace strings

theorem splitChars_ne_nil (sep : Char) (s : List Char) : splitChars sep s ≠ [] := by
  cases s with
  | nil => simp [splitChars]
  | cons c cs =>
    unfold splitChars
    split
    · simp
    · split <;> simp

theorem splitChars_of_not_mem (sep : Char) (s : List Char) (h : sep ∉ s) :
    splitChars sep s = [s] := by
  induction s with
  | nil => rfl
  | cons c cs ih =>
    have hc : c ≠ sep := fun e => h (by simp [e])
    have hcs : sep ∉ cs := fun e => h (List.mem_cons_of_mem _ e)
    simp [splitChars, hc, ih hcs]

theorem splitChars_append (sep : Char) (a b : List Char) (h : sep ∉ a) :
    splitChars sep (a ++ sep :: b) = a :: splitChars sep b := by
  induction a with
  | nil => simp [splitChars]
  | cons c cs ih =>
    have hc : c ≠ sep := fun e => h (by simp [e])
    have hcs : sep ∉ cs := fun e => h (List.mem_cons_of_mem _ e)
    simp [splitChars, hc, ih hcs]

/-- Splitting loses nothing: joining the pieces with the separator gives the
text back, and no piece holds the separator. -/
theorem splitChars_join (sep : Char) (s : List Char) :
    [sep].intercalate (splitChars sep s) = s ∧ ∀ p ∈ splitChars sep s, sep ∉ p := by
  induction s with
  | nil => simp [splitChars, List.intercalate]
  | cons c cs ih =>
    unfold splitChars
    by_cases hc : c = sep
    · subst hc
      rw [if_pos rfl]
      obtain ⟨h1, h2⟩ := ih
      constructor
      · cases hs : splitChars c cs with
        | nil => exact absurd hs (splitChars_ne_nil _ _)
        | cons p ps =>
          rw [hs] at h1
          simp [List.intercalate] at h1 ⊢
          exact h1
      · intro p hp
        rcases List.mem_cons.1 hp with rfl | hp
        · simp
        · exact h2 p hp
    · rw [if_neg hc]
      obtain ⟨h1, h2⟩ := ih
      cases hs : splitChars sep cs with
      | nil => exact absurd hs (splitChars_ne_nil _ _)
      | cons p ps =>
        rw [hs] at h1 h2
        constructor
        · cases ps with
          | nil =>
            simp [List.intercalate] at h1 ⊢
            exact h1
          | cons q qs =>
            simp [List.intercalate] at h1 ⊢
            exact h1
        · intro x hx
          rcases List.mem_cons.1 hx with rfl | hx
          · have := h2 p (List.mem_cons_self _ _)
            intro hmem
            rcases List.mem_cons.1 hmem with e | e
            · exact hc e.symm
            · exact this e
          · exact h2 x (List.mem_cons_of_mem _ hx)

end strings

/-! ## Literals hold neither a colon nor a newline -/

namespace strconv

theorem digitsValue?_digits (ds : List Char) (v : Nat) (h : digitsValue? ds = some v) :
    ∀ c ∈ ds, isDigit c = true := by
  unfold digitsValue? at h
  split at h
  · rename_i hd
    intro c hc
    exact (List.all_eq_true.1 hd.2) c hc
  · simp at h

theorem literal_chars (t : String) (n : Int) (h : literalValue t = some n) :
    ∀ c ∈ t.data, c = '+' ∨ c = '-' ∨ isDigit c = true := by
  unfold literalValue at h
  cases hd : t.data with
  | nil => simp [hd] at h
  | cons c cs =>
    simp only [hd] at h
    intro x hx
    by_cases hplus : c = '+'
    · rw [if_pos hplus, Option.map_eq_some'] at h
      obtain ⟨v, hv, _⟩ := h
      rcases List.mem_cons.1 hx with e | e
      · exact Or.inl (e.trans hplus)
      · exact Or.inr (Or.inr (digitsValue?_digits cs v hv x e))
    · by_cases hminus : c = '-'
      · rw [if_neg hplus, if_pos hminus, Option.map_eq_some'] at h
        obtain ⟨v, hv, _⟩ := h
        rcases List.mem_cons.1 hx with e | e
        · exact Or.inr (Or.inl (e.trans hminus))
        · exact Or.inr (Or.inr (digitsValue?_digits cs v hv x e))
      · rw [if_neg hplus, if_neg hminus, Option.map_eq_some'] at h
        obtain ⟨v, hv, _⟩ := h
        exact Or.inr (Or.inr (digitsValue?_digits (c :: cs) v hv x hx))

theorem literal_no_colon (t : String) (n : Int) (h : literalValue t = some n) :
    ':' ∉ t.data := by
  intro hmem
  rcases literal_chars t n h ':' hmem with e | e | e
  · exact absurd e (by decide)
  · exact absurd e (by decide)
  · exact absurd e (by decide)

theorem literal_no_newline (t : String) (n : Int) (h : literalValue t = some n) :
    '\n' ∉ t.data := by
  intro hmem
  rcases literal_chars t n h '\n' hmem with e | e | e
  · exact absurd e (by decide)
  · exact absurd e (by decide)
  · exact absurd e (by decide)

/-- Either `Atoi` returns a value without error, or it returns an error. -/
theorem Atoi_cases (t : String) :
    (∃ n, Atoi t = (n, none) ∧ literalValue t = some n ∧ fitsInt n) ∨
    (∃ n e, Atoi t = (n, some e) ∧ ∀ m, ¬ (literalValue t = some m ∧ fitsInt m)) := by
  rcases h : Atoi t with ⟨n, err⟩
  cases err with
  | none => exact Or.inl ⟨n, rfl, (Atoi_ok_iff t n).1 h⟩
  | some e =>
    refine Or.inr ⟨n, e, rfl, ?_⟩
    intro m hm
    have := (Atoi_ok_iff t m).2 hm
    rw [h] at this
    simp at this

end strconv

/-! ## `extract_uri_id` -/

theorem Split_model (kind t : String) (hk : ':' ∉ kind.data) :
    strings.Split ("model:" ++ kind ++ ":" ++ t) ':' =
      "model" :: kind :: strings.Split t ':' := by
  have h1 : ("model:" ++ kind ++ ":" ++ t).data =
      ['m', 'o', 'd', 'e', 'l'] ++ ':' :: (kind.data ++ ':' :: t.data) := by
    simp [String.data_append]
  unfold strings.Split
  rw [h1, strings.splitChars_append _ _ _ (by decide), strings.splitChars_append _ _ _ hk]
  rfl

theorem Split_literal (t : String) (n : Int) (h : strconv.literalValue t = some n) :
    strings.Split t ':' = [t] := by
  unfold strings.Split
  rw [strings.splitChars_of_not_mem _ _ (strconv.literal_no_colon t n h)]
  rfl

/-- A split into three parts gives the text back as the parts joined by
colons, and no part holds a colon. -/
theorem Split_three (uri a b c : String) (h : strings.Split uri ':' = [a, b, c]) :
    uri = a ++ ":" ++ b ++ ":" ++ c ∧ ':' ∉ a.data ∧ ':' ∉ b.data ∧ ':' ∉ c.data := by
  unfold strings.Split at h
  obtain ⟨hj, hfree⟩ := strings.splitChars_join ':' uri.data
  match hs : strings.splitChars ':' uri.data, h with
  | [x, y, z], h =>
    rw [hs] at hj hfree
    simp only [List.map_cons, List.map_nil, List.cons.injEq, and_true] at h
    obtain ⟨ha, hb, hc⟩ := h
    subst ha; subst hb; subst hc
    refine ⟨?_, hfree x (by simp), hfree y (by simp), hfree z (by simp)⟩
    apply String.ext
    simp only [String.data_append]
    simp [List.intercalate] at hj
    rw [← hj]
    simp

theorem extract_of_split (uri kind t : String)
    (h : strings.Split uri ':' = ["model", kind, t]) :
    extract_uri_id uri =
      match strconv.Atoi t with
      | (_, some e) => .ret (-1, some (.badID e))
      | (id, none) => .ret (id, none) := by
  simp [extract_uri_id, h, index]

/-- No call of `extract_uri_id` panics. -/
theorem extract_returns (uri : String) : ∃ r, extract_uri_id uri = .ret r := by
  unfold extract_uri_id
  simp only
  split
  · exact ⟨_, rfl⟩
  · rename_i hlen
    simp only [ne_eq, Decidable.not_not] at hlen
    match hp : strings.Split uri ':', hlen with
    | [a, b, c], _ =>
      simp only [index, List.getElem?_cons_zero, List.getElem?_cons_succ]
      split
      · exact ⟨_, rfl⟩
      · split <;> exact ⟨_, rfl⟩

/-- An error of `extract_uri_id` comes with the id `-1`. -/
theorem extract_error_value (uri : String) (n : Int) (e : URIError)
    (h : extract_uri_id uri = .ret (n, some e)) : n = -1 := by
  unfold extract_uri_id at h
  simp only at h
  split at h
  · simp at h; exact h.1.symm
  · split at h
    · simp at h
    · split at h
      · simp at h; exact h.1.symm
      · split at h
        · simp at h
        · split at h
          · simp at h; exact h.1.symm
          · simp at h

theorem extract_ok_iff (uri : String) (id : Int) :
    extract_uri_id uri = .ret (id, none) ↔
      ∃ kind t, strings.Split uri ':' = ["model", kind, t] ∧
        strconv.literalValue t = some id ∧ strconv.fitsInt id := by
  constructor
  · intro h
    unfold extract_uri_id at h
    simp only at h
    split at h
    · simp at h
    · rename_i hlen
      simp only [ne_eq, Decidable.not_not] at hlen
      match hp : strings.Split uri ':', hlen with
      | [a, b, c], _ =>
        rw [hp] at h
        simp only [index, List.getElem?_cons_zero, List.getElem?_cons_succ] at h
        split at h
        · simp at h
        · rename_i ha
          simp only [ne_eq, Decidable.not_not] at ha
          subst ha
          refine ⟨b, c, rfl, ?_⟩
          rcases strconv.Atoi_cases c with ⟨n, h1, h2⟩ | ⟨n, e, h1, _⟩
          · rw [h1] at h
            simp only [Outcome.ret.injEq, Prod.mk.injEq, and_true] at h
            subst h
            exact h2
          · rw [h1] at h
            simp at h
  · rintro ⟨kind, t, hs, hl, hf⟩
    rw [extract_of_split uri kind t hs, (strconv.Atoi_ok_iff t id).2 ⟨hl, hf⟩]

theorem extract_wellFormed (uri : String) (n : Int) (h : WellFormedURI uri n) :
    (strconv.fitsInt n → extract_uri_id uri = .ret (n, none)) ∧
    (¬ strconv.fitsInt n → ∃ e, extract_uri_id uri = .ret (-1, some e)) := by
  obtain ⟨kind, t, rfl, hk, hl⟩ := h
  have hs : strings.Split ("model:" ++ kind ++ ":" ++ t) ':' = ["model", kind, t] := by
    rw [Split_model kind t hk, Split_literal t n hl]
  constructor
  · intro hf
    exact (extract_ok_iff _ n).2 ⟨kind, t, hs, hl, hf⟩
  · intro hf
    rw [extract_of_split _ kind t hs]
    rcases strconv.Atoi_cases t with ⟨m, _, h2, h3⟩ | ⟨m, e, h1, _⟩
    · rw [hl] at h2
      simp only [Option.some.injEq] at h2
      subst h2
      exact absurd h3 hf
    · rw [h1]
      exact ⟨_, rfl⟩

theorem extract_ok_iff_wellFormed (uri : String) (id : Int) :
    extract_uri_id uri = .ret (id, none) ↔ WellFormedURI uri id ∧ strconv.fitsInt id := by
  constructor
  · intro h
    obtain ⟨kind, t, hs, hl, hf⟩ := (extract_ok_iff uri id).1 h
    obtain ⟨he, _, hk, _⟩ := Split_three uri "model" kind t hs
    refine ⟨⟨kind, t, ?_, hk, hl⟩, hf⟩
    rw [he]
    apply String.ext
    simp [String.data_append]
  · rintro ⟨hw, hf⟩
    exact (extract_wellFormed uri id hw).1 hf

theorem extract_malformed (uri : String) (h : MalformedURI uri) :
    ∃ e, extract_uri_id uri = .ret (-1, some e) := by
  obtain ⟨⟨n, err⟩, hr⟩ := extract_returns uri
  cases err with
  | some e =>
    have := extract_error_value uri n e hr
    subst this
    exact ⟨e, hr⟩
  | none =>
    exfalso
    obtain ⟨kind, t, hs, hl, hf⟩ := (extract_ok_iff uri n).1 hr
    rcases h with h | h | h
    · rw [hs] at h; simp at h
    · rw [hs] at h; simp at h
    · exact h t (by rw [hs]; rfl) n ⟨hl, hf⟩

/-! ## The conditions -/

theorem membershipLoop_eq (ms : List DBSquadMembership) (squadID userID : Int) :
    membershipLoop ms squadID userID =
      decide (∃ m ∈ ms, m.SquadID = squadID ∧ m.UserID = userID) := by
  induction ms with
  | nil => simp [membershipLoop]
  | cons m rest ih =>
    unfold membershipLoop
    by_cases h : m.SquadID = squadID ∧ m.UserID = userID
    · simp [h]
    · rw [if_neg h, ih]
      simp only [List.mem_cons, exists_eq_or_imp, decide_eq_decide]
      constructor
      · intro h1; exact Or.inr h1
      · rintro (h1 | h1)
        · exact absurd h1 h
        · exact h1

/-- Every id in the membership table is a Go `int`. -/
theorem squadMemberships_fit :
    ∀ m ∈ squadMemberships, strconv.fitsInt m.SquadID ∧ strconv.fitsInt m.UserID := by
  decide

/-- The method `SquadMemberCondition.Fulfills` never panics. -/
theorem SquadMember_returns (c : SquadMemberCondition) (v : Value) (req : Request) :
    ∃ b, c.Fulfills v req = .ret b := by
  unfold SquadMemberCondition.Fulfills
  obtain ⟨⟨n, e⟩, h1⟩ := extract_returns req.Subject
  obtain ⟨⟨m, e2⟩, h2⟩ := extract_returns req.Resource
  rw [h1]
  cases e with
  | some e => exact ⟨_, rfl⟩
  | none =>
    simp only
    rw [h2]
    cases e2 with
    | some e => exact ⟨_, rfl⟩
    | none => exact ⟨_, rfl⟩

theorem SquadMember_wellFormed (c : SquadMemberCondition) (v : Value) (req : Request)
    (u s : Int) (hu : WellFormedURI req.Subject u) (hs : WellFormedURI req.Resource s) :
    c.Fulfills v req =
      .ret (decide (∃ m ∈ squadMemberships, m.SquadID = s ∧ m.UserID = u)) := by
  unfold SquadMemberCondition.Fulfills
  by_cases hfu : strconv.fitsInt u
  · rw [(extract_wellFormed _ u hu).1 hfu]
    simp only
    by_cases hfs : strconv.fitsInt s
    · rw [(extract_wellFormed _ s hs).1 hfs]
      simp only [membershipLoop_eq]
    · obtain ⟨e, he⟩ := (extract_wellFormed _ s hs).2 hfs
      rw [he]
      simp only [Outcome.ret.injEq, Bool.false_eq, decide_eq_false_iff_not]
      rintro ⟨m, hm, h1, _⟩
      exact hfs (h1 ▸ (squadMemberships_fit m hm).1)
  · obtain ⟨e, he⟩ := (extract_wellFormed _ u hu).2 hfu
    rw [he]
    simp only [Outcome.ret.injEq, Bool.false_eq, decide_eq_false_iff_not]
    rintro ⟨m, hm, _, h2⟩
    exact hfu (h2 ▸ (squadMemberships_fit m hm).2)

theorem SquadMember_malformed (c : SquadMemberCondition) (v : Value) (req : Request)
    (h : MalformedURI req.Subject ∨ MalformedURI req.Resource) :
    c.Fulfills v req = .ret false := by
  unfold SquadMemberCondition.Fulfills
  rcases h with h | h
  · obtain ⟨e, he⟩ := extract_malformed _ h
    rw [he]
  · obtain ⟨e, he⟩ := extract_malformed _ h
    obtain ⟨⟨n, e1⟩, h1⟩ := extract_returns req.Subject
    rw [h1]
    cases e1 with
    | some e => rfl
    | none =>
      simp only
      rw [he]

theorem extract_kind_independent (k k' t : String) (hk : ':' ∉ k.data)
    (hk' : ':' ∉ k'.data) :
    extract_uri_id ("model:" ++ k ++ ":" ++ t) =
      extract_uri_id ("model:" ++ k' ++ ":" ++ t) := by
  unfold extract_uri_id
  simp only [Split_model k t hk, Split_model k' t hk', List.length_cons, index,
    List.getElem?_cons_zero, List.getElem?_cons_succ]

/-- Claim C1: for every request, `SelfCondition.Fulfills` returns true exactly
when the subject string equals the resource string, whatever the receiver, the
first argument, the action and the context are; the comparison is exact, so
subjects differing only in letter case or by a trailing blank are not equal to
the resource. -/
theorem SelfCondition_Fulfills_iff :
    (∀ (c : SelfCondition) (v : Value) (subject action resource : String)
        (ctx : List (String × Value)),
        c.Fulfills v ⟨subject, action, resource, ctx⟩ = true ↔ subject = resource) ∧
    (∀ (c : SelfCondition) (v : Value) (action : String) (ctx : List (String × Value)),
        c.Fulfills v ⟨"model:user:a", action, "model:user:A", ctx⟩ = false ∧
        c.Fulfills v ⟨"model:user:0 ", action, "model:user:0", ctx⟩ = false ∧
        c.Fulfills v ⟨"model:user:0", action, "model:user:0", ctx⟩ = true) := by
  constructor
  · intro c v subject action resource ctx
    simp [SelfCondition.Fulfills]
  · intro c v action ctx
    refine ⟨?_, ?_, ?_⟩ <;> simp [SelfCondition.Fulfills]

/-- Claim C2: for a request whose subject is a well-formed URI
`model:<kind>:<u>` and whose resource is a well-formed URI `model:<kind>:<s>`
(colon-free kinds, base-10 literals of any integers `u` and `s`),
`SquadMemberCondition.Fulfills` returns, without panic, true if the table
`squadMemberships` holds a record with `SquadID = s` and `UserID = u`, and
false otherwise. -/
theorem SquadMemberCondition_Fulfills_iff_member (c : SquadMemberCondition) (v : Value)
    (req : Request) (u s : Int)
    (hu : WellFormedURI req.Subject u) (hs : WellFormedURI req.Resource s) :
    (c.Fulfills v req = .ret true ↔
      ∃ m ∈ squadMemberships, m.SquadID = s ∧ m.UserID = u) ∧
    (c.Fulfills v req = .ret false ↔
      ¬ ∃ m ∈ squadMemberships, m.SquadID = s ∧ m.UserID = u) := by
  rw [SquadMember_wellFormed c v req u s hu hs]
  simp

theorem SquadMemberCondition_Fulfills_iff_member_witness :
    (WellFormedURI "model:user:0" 0 ∧ WellFormedURI "model:squad:1" 1) ∧
    ((SquadMemberCondition.Fulfills {} .nil
        ⟨"model:user:0", "service:squad:get", "model:squad:1", []⟩ = .ret true ↔
      ∃ m ∈ squadMemberships, m.SquadID = 1 ∧ m.UserID = 0) ∧
    (SquadMemberCondition.Fulfills {} .nil
        ⟨"model:user:0", "service:squad:get", "model:squad:1", []⟩ = .ret false ↔
      ¬ ∃ m ∈ squadMemberships, m.SquadID = 1 ∧ m.UserID = 0)) :=
  ⟨⟨⟨"user", "0", by decide, by decide, by decide⟩,
    ⟨"squad", "1", by decide, by decide, by decide⟩⟩,
   SquadMemberCondition_Fulfills_iff_member {} .nil
    ⟨"model:user:0", "service:squad:get", "model:squad:1", []⟩ 0 1
    ⟨"user", "0", by decide, by decide, by decide⟩
    ⟨"squad", "1", by decide, by decide, by decide⟩⟩

/-- Claim C3: when the subject or the resource of a request is a malformed URI
(it does not split on `:` into exactly three parts, or its first part is not
`model`, or its third part does not parse as an integer),
`SquadMemberCondition.Fulfills` returns false, and it does not panic, whatever
the other URI is. -/
theorem SquadMemberCondition_Fulfills_malformed (c : SquadMemberCondition) (v : Value)
    (req : Request) (h : MalformedURI req.Subject ∨ MalformedURI req.Resource) :
    c.Fulfills v req = .ret false :=
  SquadMember_malformed c v req h

theorem SquadMemberCondition_Fulfills_malformed_witness :
    (MalformedURI "model:user:0:1" ∨ MalformedURI "model:squad:0") ∧
    SquadMemberCondition.Fulfills {} .nil
      ⟨"model:user:0:1", "service:squad:get", "model:squad:0", []⟩ = .ret false :=
  ⟨Or.inl (Or.inl (by decide)),
   SquadMemberCondition_Fulfills_malformed {} .nil
    ⟨"model:user:0:1", "service:squad:get", "model:squad:0", []⟩
    (Or.inl (Or.inl (by decide)))⟩

/-- Claim C4: `extract_uri_id` returns an id without error exactly when
splitting the URI on `:` yields exactly three parts, the first part is `model`
and the third part is a base-10 literal of a Go `int` (an optional sign, one or
more decimal digits, a value between -2^63 and 2^63 - 1); the id returned is
the integer the literal denotes; in every other case it returns the id -1 with
an error; it never panics.  Said without the split: the URI is `model:`, a
colon-free kind, `:` and such a literal.  `model:user:7` gives 7 and
`model:squad:2` gives 2. -/
theorem extract_uri_id_spec (uri : String) :
    (∀ id, extract_uri_id uri = .ret (id, none) ↔
      ∃ kind t, strings.Split uri ':' = ["model", kind, t] ∧
        strconv.literalValue t = some id ∧ strconv.fitsInt id) ∧
    (∀ id, extract_uri_id uri = .ret (id, none) ↔
      WellFormedURI uri id ∧ strconv.fitsInt id) ∧
    ((¬ ∃ id kind t, strings.Split uri ':' = ["model", kind, t] ∧
        strconv.literalValue t = some id ∧ strconv.fitsInt id) →
      ∃ e, extract_uri_id uri = .ret (-1, some e)) ∧
    extract_uri_id "model:user:7" = .ret (7, none) ∧
    extract_uri_id "model:squad:2" = .ret (2, none) ∧
    extract_uri_id "model:user:-7" = .ret (-7, none) ∧
    extract_uri_id "model:user" = .ret (-1, some .notThreeParts) ∧
    extract_uri_id "user:model:7" = .ret (-1, some .notModel) ∧
    extract_uri_id "model:user:x7" = .ret (-1, some (.badID .ErrSyntax)) := by
  refine ⟨fun id => extract_ok_iff uri id, fun id => extract_ok_iff_wellFormed uri id, ?_,
    by decide, by decide, by decide, by decide, by decide, by decide⟩
  intro hno
  obtain ⟨⟨n, err⟩, hr⟩ := extract_returns uri
  cases err with
  | some e =>
    have := extract_error_value uri n e hr
    subst this
    exact ⟨e, hr⟩
  | none =>
    obtain ⟨kind, t, h⟩ := (extract_ok_iff uri n).1 hr
    exact absurd ⟨n, kind, t, h⟩ hno

/-- Claim C10: `SquadMemberCondition.Fulfills` does not depend on the middle
(kind) segment of either URI: for colon-free kinds `k1`, `k2`, `k1'`, `k2'`
and any third segments `i` and `j` (integer literals among them) the result on
`model:k1:i`, `model:k2:j` is the result on `model:k1':i`, `model:k2':j`.  So
the subject `model:squad:0` on the resource `model:user:1` is treated as user 0
and squad 1, a member. -/
theorem SquadMemberCondition_Fulfills_kind_independent (c : SquadMemberCondition)
    (v : Value) (k1 k2 k1' k2' i j action : String) (ctx : List (String × Value))
    (h1 : ':' ∉ k1.data) (h2 : ':' ∉ k2.data) (h1' : ':' ∉ k1'.data)
    (h2' : ':' ∉ k2'.data) :
    c.Fulfills v ⟨"model:" ++ k1 ++ ":" ++ i, action, "model:" ++ k2 ++ ":" ++ j, ctx⟩ =
      c.Fulfills v ⟨"model:" ++ k1' ++ ":" ++ i, action, "model:" ++ k2' ++ ":" ++ j, ctx⟩ ∧
    c.Fulfills v ⟨"model:squad:0", action, "model:user:1", ctx⟩ = .ret true := by
  constructor
  · unfold SquadMemberCondition.Fulfills
    simp only [extract_kind_independent k1 k1' i h1 h1',
      extract_kind_independent k2 k2' j h2 h2']
  · have hu : WellFormedURI "model:squad:0" 0 := ⟨"squad", "0", by decide, by decide, by decide⟩
    have hs : WellFormedURI "model:user:1" 1 := ⟨"user", "1", by decide, by decide, by decide⟩
    rw [SquadMember_wellFormed c v ⟨"model:squad:0", action, "model:user:1", ctx⟩ 0 1 hu hs]
    decide

theorem SquadMemberCondition_Fulfills_kind_independent_witness :
    (':' ∉ "user".data ∧ ':' ∉ "squad".data ∧ ':' ∉ "cat".data ∧ ':' ∉ "dog".data) ∧
    (SquadMemberCondition.Fulfills {} .nil
        ⟨"model:" ++ "user" ++ ":" ++ "0", "service:squad:get",
          "model:" ++ "squad" ++ ":" ++ "1", []⟩ =
      SquadMemberCondition.Fulfills {} .nil
        ⟨"model:" ++ "cat" ++ ":" ++ "0", "service:squad:get",
          "model:" ++ "dog" ++ ":" ++ "1", []⟩ ∧
    SquadMemberCondition.Fulfills {} .nil
      ⟨"model:squad:0", "service:squad:get", "model:user:1", []⟩ = .ret true) :=
  ⟨⟨by decide, by decide, by decide, by decide⟩,
   SquadMemberCondition_Fulfills_kind_independent {} .nil "user" "squad" "cat" "dog" "0" "1"
    "service:squad:get" [] (by decide) (by decide) (by decide) (by decide)⟩

/-! ## The pattern matcher -/

namespace Regex

theorem rmatch_empty (x : List Char) : rmatch empty x = false := by
  induction x with
  | nil => rfl
  | cons c cs ih => simpa [rmatch, deriv] using ih

theorem rmatch_eps (x : List Char) : rmatch eps x = true ↔ x = [] := by
  cases x with
  | nil => simp [rmatch, nullable]
  | cons c cs => simp [rmatch, deriv, rmatch_empty]

theorem rmatch_alt (a b : Regex) (x : List Char) :
    rmatch (alt a b) x = (rmatch a x || rmatch b x) := by
  induction x generalizing a b with
  | nil => simp [rmatch, nullable]
  | cons c cs ih => simp [rmatch, deriv, ih]

theorem rmatch_seq (a b : Regex) (x : List Char) :
    rmatch (seq a b) x = true ↔
      ∃ u v, x = u ++ v ∧ rmatch a u = true ∧ rmatch b v = true := by
  induction x generalizing a with
  | nil =>
    simp only [rmatch, nullable, Bool.and_eq_true]
    constructor
    · rintro ⟨h1, h2⟩
      exact ⟨[], [], rfl, h1, h2⟩
    · rintro ⟨u, v, h, h1, h2⟩
      have hu : u = [] := by
        cases u with
        | nil => rfl
        | cons _ _ => simp at h
      have hv : v = [] := by
        cases v with
        | nil => rfl
        | cons _ _ => simp [hu] at h
      subst hu; subst hv
      exact ⟨h1, h2⟩
  | cons c cs ih =>
    simp only [rmatch, deriv]
    by_cases hn : a.nullable = true
    · rw [if_pos hn, rmatch_alt, Bool.or_eq_true, ih]
      constructor
      · rintro (⟨u, v, h, h1, h2⟩ | h)
        · exact ⟨c :: u, v, by simp [h], h1, h2⟩
        · exact ⟨[], c :: cs, rfl, hn, h⟩
      · rintro ⟨u, v, h, h1, h2⟩
        cases u with
        | nil =>
          simp only [List.nil_append] at h
          subst h
          exact Or.inr h2
        | cons d u =>
          simp only [List.cons_append, List.cons.injEq] at h
          obtain ⟨hd, ht⟩ := h
          subst hd
          exact Or.inl ⟨u, v, ht, h1, h2⟩
    · rw [if_neg hn, ih]
      constructor
      · rintro ⟨u, v, h, h1, h2⟩
        exact ⟨c :: u, v, by simp [h], h1, h2⟩
      · rintro ⟨u, v, h, h1, h2⟩
        cases u with
        | nil => exact absurd h1 hn
        | cons d u =>
          simp only [List.cons_append, List.cons.injEq] at h
          obtain ⟨hd, ht⟩ := h
          subst hd
          exact ⟨u, v, ht, h1, h2⟩

theorem rmatch_chr (c : Char) (x : List Char) : rmatch (chr c) x = true ↔ x = [c] := by
  cases x with
  | nil => simp [rmatch, nullable]
  | cons d ds =>
    simp only [rmatch, deriv]
    by_cases h : c = d
    · rw [if_pos h, rmatch_eps]
      simp [h]
    · rw [if_neg h, rmatch_empty]
      simp
      intro e
      exact absurd e.symm h

theorem rmatch_lits (w : List Char) (k : Regex) (x : List Char) :
    rmatch (lits w k) x = true ↔ ∃ y, x = w ++ y ∧ rmatch k y = true := by
  induction w generalizing x with
  | nil => simp [lits]
  | cons c cs ih =>
    have hl : lits (c :: cs) k = seq (chr c) (lits cs k) := rfl
    rw [hl, rmatch_seq]
    constructor
    · rintro ⟨u, v, h, h1, h2⟩
      rw [rmatch_chr] at h1
      obtain ⟨y, hy, hk⟩ := (ih v).1 h2
      exact ⟨y, by simp [h, h1, hy], hk⟩
    · rintro ⟨y, h, hk⟩
      exact ⟨[c], cs ++ y, by simp [h], (rmatch_chr c [c]).2 rfl, (ih _).2 ⟨y, rfl, hk⟩⟩

theorem rmatch_star_any (x : List Char) : rmatch (star any) x = true ↔ '\n' ∉ x := by
  induction x with
  | nil => simp [rmatch, nullable]
  | cons c cs ih =>
    simp only [rmatch, deriv]
    by_cases h : c = '\n'
    · rw [if_pos h, rmatch_seq]
      simp [rmatch_empty, h]
    · rw [if_neg h, rmatch_seq]
      constructor
      · rintro ⟨u, v, h1, h2, h3⟩
        rw [rmatch_eps] at h2
        subst h2
        simp only [List.nil_append] at h1
        subst h1
        intro hm
        rcases List.mem_cons.1 hm with e | e
        · exact h e.symm
        · exact (ih.1 h3) e
      · intro hm
        refine ⟨[], cs, rfl, (rmatch_eps []).2 rfl, ih.2 ?_⟩
        intro e
        exact hm (List.mem_cons_of_mem _ e)

/-- The expression of the fragment `.*` at the end of a pattern matches the
texts without a newline. -/
theorem rmatch_dotStar (x : List Char) :
    rmatch (seq (seq (star any) eps) eps) x = true ↔ '\n' ∉ x := by
  rw [rmatch_seq]
  constructor
  · rintro ⟨u, v, h, h1, h2⟩
    rw [rmatch_eps] at h2
    rw [rmatch_seq] at h1
    obtain ⟨u1, v1, h3, h4, h5⟩ := h1
    rw [rmatch_eps] at h5
    subst h2; subst h5
    simp only [List.append_nil] at h3 h
    subst h3; subst h
    exact (rmatch_star_any _).1 h4
  · intro h
    exact ⟨x, [], by simp, (rmatch_seq _ _ _).2
      ⟨x, [], by simp, (rmatch_star_any x).2 h, (rmatch_eps []).2 rfl⟩, (rmatch_eps []).2 rfl⟩

end Regex

theorem compile_user : compile "model:user:<.*>" =
    some (Regex.lits "model:user:".data (.seq (.seq (.star .any) .eps) .eps)) := by
  decide

theorem compile_squad : compile "model:squad:<.*>" =
    some (Regex.lits "model:squad:".data (.seq (.seq (.star .any) .eps) .eps)) := by
  decide

theorem compile_user_set : compile "service:user:set" =
    some (Regex.lits "service:user:set".data .eps) := by
  decide

theorem compile_squad_get : compile "service:squad:get" =
    some (Regex.lits "service:squad:get".data .eps) := by
  decide

/-- The pattern `model:user:<.*>` matches the texts `model:user:` followed by
anything without a newline. -/
theorem patternMatches_user (value : String) :
    patternMatches "model:user:<.*>" value = true ↔
      ∃ y, value.data = "model:user:".data ++ y ∧ '\n' ∉ y := by
  simp only [patternMatches, compile_user, Regex.rmatch_lits, Regex.rmatch_dotStar]

theorem patternMatches_squad (value : String) :
    patternMatches "model:squad:<.*>" value = true ↔
      ∃ y, value.data = "model:squad:".data ++ y ∧ '\n' ∉ y := by
  simp only [patternMatches, compile_squad, Regex.rmatch_lits, Regex.rmatch_dotStar]

theorem patternMatches_user_set (value : String) :
    patternMatches "service:user:set" value = true ↔ value = "service:user:set" := by
  simp only [patternMatches, compile_user_set, Regex.rmatch_lits, Regex.rmatch_eps]
  constructor
  · rintro ⟨y, h, hy⟩
    subst hy
    exact String.ext (by simpa using h)
  · intro h
    exact ⟨[], by simp [h], rfl⟩

theorem patternMatches_squad_get (value : String) :
    patternMatches "service:squad:get" value = true ↔ value = "service:squad:get" := by
  simp only [patternMatches, compile_squad_get, Regex.rmatch_lits, Regex.rmatch_eps]
  constructor
  · rintro ⟨y, h, hy⟩
    subst hy
    exact String.ext (by simpa using h)
  · intro h
    exact ⟨[], by simp [h], rfl⟩

/-! ## The decision engine -/

/-- No condition panics. -/
theorem Condition_returns (c : Condition) (v : Value) (req : Request) :
    ∃ b, c.Fulfills v req = .ret b := by
  cases c with
  | self c => exact ⟨_, rfl⟩
  | squadMember c => exact SquadMember_returns c v req

theorem conditionsHold_spec (cs : List (String × Condition)) (r : Request) :
    ∃ b, conditionsHold cs r = .ret b ∧
      (b = true ↔ ∀ kc ∈ cs, kc.2.Fulfills (contextValue r.Context kc.1) r = .ret true) := by
  induction cs with
  | nil => exact ⟨true, rfl, by simp⟩
  | cons kc rest ih =>
    obtain ⟨key, c⟩ := kc
    obtain ⟨b, hb⟩ := Condition_returns c (contextValue r.Context key) r
    unfold conditionsHold
    rw [hb]
    cases b with
    | false =>
      refine ⟨false, rfl, ?_⟩
      simp only [Bool.false_eq_true, List.mem_cons, forall_eq_or_imp, false_iff, not_and]
      intro h
      rw [hb] at h
      simp at h
    | true =>
      obtain ⟨b2, h1, h2⟩ := ih
      refine ⟨b2, h1, ?_⟩
      rw [h2]
      simp only [List.mem_cons, forall_eq_or_imp, hb, true_and]

theorem satisfiedPolicies_spec (ps : List DefaultPolicy) (r : Request) :
    ∃ l, satisfiedPolicies ps r = .ret l ∧ ∀ p, p ∈ l ↔ p ∈ ps ∧ Satisfied p r := by
  induction ps with
  | nil => exact ⟨[], rfl, by simp⟩
  | cons p rest ih =>
    obtain ⟨l, hl, hmem⟩ := ih
    obtain ⟨b, hb, hiff⟩ := conditionsHold_spec p.Conditions r
    unfold satisfiedPolicies
    by_cases hp : patternsApply p r = true
    · rw [if_pos hp, hb]
      simp only [hl]
      cases b with
      | true =>
        have hsat : Satisfied p r := ⟨hp, hiff.1 rfl⟩
        refine ⟨p :: l, rfl, ?_⟩
        intro q
        simp only [List.mem_cons, hmem]
        constructor
        · rintro (e | h)
          · subst e; exact ⟨Or.inl rfl, hsat⟩
          · exact ⟨Or.inr h.1, h.2⟩
        · rintro ⟨e | h, hs⟩
          · exact Or.inl e
          · exact Or.inr ⟨h, hs⟩
      | false =>
        have hsat : ¬ Satisfied p r := fun h => by
          have := hiff.2 h.2
          simp at this
        refine ⟨l, rfl, ?_⟩
        intro q
        simp only [List.mem_cons, hmem, Bool.false_eq_true, if_false]
        constructor
        · rintro ⟨h, hs⟩
          exact ⟨Or.inr h, hs⟩
        · rintro ⟨e | h, hs⟩
          · subst e; exact absurd hs hsat
          · exact ⟨h, hs⟩
    · rw [if_neg hp]
      have hsat : ¬ Satisfied p r := fun h => hp h.1
      refine ⟨l, hl, ?_⟩
      intro q
      simp only [List.mem_cons, hmem]
      constructor
      · rintro ⟨h, hs⟩
        exact ⟨Or.inr h, hs⟩
      · rintro ⟨e | h, hs⟩
        · subst e; exact absurd hs hsat
        · exact ⟨h, hs⟩

/-- Default-deny, for every store: when no stored policy is satisfied the
decision is the denial "no matching policy". -/
theorem IsAllowed_default_deny (warden : Ladon) (heap : Heap) (r : Request)
    (h : ∀ p ∈ warden.Manager.findPolicies heap, ¬ Satisfied p r) :
    warden.IsAllowed heap r = .ret (.Denied "no matching policy") := by
  obtain ⟨l, hl, hmem⟩ := satisfiedPolicies_spec (warden.Manager.findPolicies heap) r
  have hnil : l = [] := by
    cases l with
    | nil => rfl
    | cons q qs =>
      have := (hmem q).1 (List.mem_cons_self _ _)
      exact absurd this.2 (h q this.1)
  subst hnil
  unfold Ladon.IsAllowed
  rw [hl]
  rfl

/-- When every stored policy is an Allow policy and some stored policy is
satisfied, the decision is Allowed. -/
theorem IsAllowed_allow_only (warden : Ladon) (heap : Heap) (r : Request)
    (hallow : ∀ p ∈ warden.Manager.findPolicies heap, p.Effect = .Allow)
    (p : DefaultPolicy) (hp : p ∈ warden.Manager.findPolicies heap) (hs : Satisfied p r) :
    warden.IsAllowed heap r = .ret .Allowed := by
  obtain ⟨l, hl, hmem⟩ := satisfiedPolicies_spec (warden.Manager.findPolicies heap) r
  unfold Ladon.IsAllowed
  rw [hl]
  simp only [combine, Outcome.ret.injEq]
  have h1 : l.any (fun p => decide (p.Effect = .Deny)) = false := by
    rw [List.any_eq_false]
    intro q hq
    have := hallow q ((hmem q).1 hq).1
    simp [this]
  have h2 : l.any (fun p => decide (p.Effect = .Allow)) = true := by
    rw [List.any_eq_true]
    exact ⟨p, (hmem p).2 ⟨hp, hs⟩, by simp [hallow p hp]⟩
  simp [h1, h2]

/-! ## `main` -/

/-- The state after the loading loop: both entries of the store refer to the
one loop variable, which holds the squad policy. -/
theorem mainLoaded_eq (id1 id2 : String) (hid : id1 ≠ id2) :
    mainLoaded id1 id2 = .ok
      { heap := [(0, squadPolicy id2), (0, userPolicy id1)]
        warden := { Manager := { Policies := [(id1, 0), (id2, 0)] } } } := by
  have hv1 : validPolicy (userPolicy id1) = true := rfl
  have hv2 : validPolicy (squadPolicy id2) = true := rfl
  have hne : (id2 == id1) = false := by
    simp only [beq_eq_false_iff_ne, ne_eq]
    exact fun e => hid e.symm
  have hI1 : (userPolicy id1).ID = id1 := rfl
  have hI2 : (squadPolicy id2).ID = id2 := rfl
  simp [mainLoaded, policies, loadLoop, MemoryManager.Create, Heap.write, Heap.read,
    List.lookup, NewMemoryManager, hv1, hv2, hne, hI1, hI2]

theorem mainLoaded_same (id : String) : mainLoaded id id = .error .DuplicateID := by
  have hv1 : validPolicy (userPolicy id) = true := rfl
  have hI1 : (userPolicy id).ID = id := rfl
  have hI2 : (squadPolicy id).ID = id := rfl
  simp [mainLoaded, policies, loadLoop, MemoryManager.Create, Heap.write, Heap.read,
    List.lookup, NewMemoryManager, hv1, hI1, hI2]

theorem main_candidates (id1 id2 : String) :
    MemoryManager.findPolicies ⟨[(id1, 0), (id2, 0)]⟩
      [(0, squadPolicy id2), (0, userPolicy id1)] = [squadPolicy id2, squadPolicy id2] := by
  simp [MemoryManager.findPolicies, Heap.read, List.lookup]

theorem squadPolicy_satisfied_iff (id : String) (req : Request) :
    Satisfied (squadPolicy id) req ↔
      (patternMatches "model:user:<.*>" req.Subject = true ∧
        patternMatches "model:squad:<.*>" req.Resource = true ∧
        patternMatches "service:squad:get" req.Action = true) ∧
      SquadMemberCondition.Fulfills {} (contextValue req.Context "member") req = .ret true := by
  simp [Satisfied, squadPolicy, patternsApply, Condition.Fulfills, and_assoc]

/-- The decision of `main` on a request, for distinct policy ids: it is
decided by the squad policy alone. -/
theorem mainDecision_eq (id1 id2 : String) (hid : id1 ≠ id2) (req : Request) :
    (Satisfied (squadPolicy id2) req → mainDecision id1 id2 req = some (.ret .Allowed)) ∧
    (¬ Satisfied (squadPolicy id2) req →
      mainDecision id1 id2 req = some (.ret (.Denied "no matching policy"))) := by
  have hc := main_candidates id1 id2
  constructor
  · intro hs
    simp only [mainDecision, mainLoaded_eq id1 id2 hid, test_request, Option.some.injEq]
    apply IsAllowed_allow_only _ _ _ _ (squadPolicy id2) _ hs
    · intro p hp
      rw [hc] at hp
      simp only [List.mem_cons, List.mem_singleton, or_self, List.not_mem_nil, or_false] at hp
      subst hp
      rfl
    · rw [hc]
      exact List.mem_cons_self _ _
  · intro hs
    simp only [mainDecision, mainLoaded_eq id1 id2 hid, test_request, Option.some.injEq]
    apply IsAllowed_default_deny
    intro p hp
    rw [hc] at hp
    simp only [List.mem_cons, List.mem_singleton, or_self, List.not_mem_nil, or_false] at hp
    subst hp
    exact hs

theorem user_uri_matches (t : String) (n : Int) (h : strconv.literalValue t = some n) :
    patternMatches "model:user:<.*>" ("model:user:" ++ t) = true :=
  (patternMatches_user _).2 ⟨t.data, by simp [String.data_append],
    strconv.literal_no_newline t n h⟩

theorem squad_uri_matches (t : String) (n : Int) (h : strconv.literalValue t = some n) :
    patternMatches "model:squad:<.*>" ("model:squad:" ++ t) = true :=
  (patternMatches_squad _).2 ⟨t.data, by simp [String.data_append],
    strconv.literal_no_newline t n h⟩

theorem squad_request_satisfied_iff (id t1 t2 : String) (u s : Int)
    (ctx : List (String × Value))
    (hu : strconv.literalValue t1 = some u) (hs : strconv.literalValue t2 = some s) :
    Satisfied (squadPolicy id)
        ⟨"model:user:" ++ t1, "service:squad:get", "model:squad:" ++ t2, ctx⟩ ↔
      ∃ m ∈ squadMemberships, m.SquadID = s ∧ m.UserID = u := by
  have hw1 : WellFormedURI ("model:user:" ++ t1) u :=
    ⟨"user", t1, by simp [String.ext_iff, String.data_append], by decide, hu⟩
  have hw2 : WellFormedURI ("model:squad:" ++ t2) s :=
    ⟨"squad", t2, by simp [String.ext_iff, String.data_append], by decide, hs⟩
  rw [squadPolicy_satisfied_iff]
  simp only [user_uri_matches t1 u hu, squad_uri_matches t2 s hs,
    (patternMatches_squad_get _).2 rfl, and_self, true_and]
  rw [SquadMember_wellFormed _ _ _ u s hw1 hw2]
  simp

/-- Claim C5, evaluated on the code: after `main` has loaded its two policies
(distinct ids), every request with the action `service:user:set` is denied
with "no matching policy", also the request of subject `model:user:0` on the
resource `model:user:0` itself, which the claim and the first `test_request`
of `main` expect to be allowed.  A warden whose store refers to two separate
variables holding the two policies does allow that request, and denies
subject `model:user:1` on resource `model:user:0`. -/
theorem user_set_denied_after_main (id1 id2 : String) (hid : id1 ≠ id2)
    (subject resource : String) (ctx : List (String × Value)) :
    mainDecision id1 id2 ⟨subject, "service:user:set", resource, ctx⟩ =
      some (.ret (.Denied "no matching policy")) ∧
    mainDecision id1 id2 ⟨"model:user:0", "service:user:set", "model:user:0", ctx⟩ =
      some (.ret (.Denied "no matching policy")) ∧
    Ladon.IsAllowed ⟨⟨[(id1, 0), (id2, 1)]⟩⟩ [(0, userPolicy id1), (1, squadPolicy id2)]
      ⟨"model:user:0", "service:user:set", "model:user:0", ctx⟩ = .ret .Allowed ∧
    Ladon.IsAllowed ⟨⟨[(id1, 0), (id2, 1)]⟩⟩ [(0, userPolicy id1), (1, squadPolicy id2)]
      ⟨"model:user:1", "service:user:set", "model:user:0", ctx⟩ =
      .ret (.Denied "no matching policy") := by
  have hdeny : ∀ s r : String,
      mainDecision id1 id2 ⟨s, "service:user:set", r, ctx⟩ =
        some (.ret (.Denied "no matching policy")) := by
    intro s r
    apply (mainDecision_eq id1 id2 hid _).2
    rw [squadPolicy_satisfied_iff]
    rintro ⟨⟨_, _, h⟩, _⟩
    have h2 : "service:user:set" = "service:squad:get" := (patternMatches_squad_get _).1 h
    exact absurd h2 (by decide)
  exact ⟨hdeny subject resource, hdeny _ _, rfl, rfl⟩

theorem user_set_denied_after_main_witness :
    "6ba7b810" ≠ "6ba7b811" ∧
    mainDecision "6ba7b810" "6ba7b811"
      ⟨"model:user:0", "service:user:set", "model:user:0", []⟩ =
      some (.ret (.Denied "no matching policy")) :=
  ⟨by decide,
   (user_set_denied_after_main "6ba7b810" "6ba7b811" (by decide)
      "model:user:0" "model:user:0" []).1⟩

/-- Claim C6: after `main` has loaded its two policies (distinct ids), a
request with the action `service:squad:get`, the subject `model:user:<u>` and
the resource `model:squad:<s>`, for base-10 literals of any integers `u` and
`s`, is allowed if `squadMemberships` links squad `s` to user `u` and is
denied otherwise; user 0 on squad 1 is allowed and user 2 on squad 1 is
denied. -/
theorem squad_get_allowed_iff_member (id1 id2 : String) (hid : id1 ≠ id2)
    (t1 t2 : String) (u s : Int) (ctx : List (String × Value))
    (hu : strconv.literalValue t1 = some u) (hs : strconv.literalValue t2 = some s) :
    (mainDecision id1 id2
        ⟨"model:user:" ++ t1, "service:squad:get", "model:squad:" ++ t2, ctx⟩ =
        some (.ret .Allowed) ↔
      ∃ m ∈ squadMemberships, m.SquadID = s ∧ m.UserID = u) ∧
    ((¬ ∃ m ∈ squadMemberships, m.SquadID = s ∧ m.UserID = u) →
      mainDecision id1 id2
        ⟨"model:user:" ++ t1, "service:squad:get", "model:squad:" ++ t2, ctx⟩ =
        some (.ret (.Denied "no matching policy"))) ∧
    mainDecision id1 id2 ⟨"model:user:0", "service:squad:get", "model:squad:1", ctx⟩ =
      some (.ret .Allowed) ∧
    mainDecision id1 id2 ⟨"model:user:2", "service:squad:get", "model:squad:1", ctx⟩ =
      some (.ret (.Denied "no matching policy")) := by
  have key : ∀ (a b : String) (x y : Int), strconv.literalValue a = some x →
      strconv.literalValue b = some y →
      ((∃ m ∈ squadMemberships, m.SquadID = y ∧ m.UserID = x) →
        mainDecision id1 id2
          ⟨"model:user:" ++ a, "service:squad:get", "model:squad:" ++ b, ctx⟩ =
          some (.ret .Allowed)) ∧
      ((¬ ∃ m ∈ squadMemberships, m.SquadID = y ∧ m.UserID = x) →
        mainDecision id1 id2
          ⟨"model:user:" ++ a, "service:squad:get", "model:squad:" ++ b, ctx⟩ =
          some (.ret (.Denied "no matching policy"))) := by
    intro a b x y ha hb
    have hsat := squad_request_satisfied_iff id2 a b x y ctx ha hb
    constructor
    · intro hm
      exact (mainDecision_eq id1 id2 hid _).1 (hsat.2 hm)
    · intro hm
      exact (mainDecision_eq id1 id2 hid _).2 (fun h => hm (hsat.1 h))
  refine ⟨?_, (key t1 t2 u s hu hs).2, ?_, ?_⟩
  · constructor
    · intro h
      by_contra hm
      rw [(key t1 t2 u s hu hs).2 hm] at h
      simp at h
    · exact (key t1 t2 u s hu hs).1
  · exact (key "0" "1" 0 1 (by decide) (by decide)).1 (by decide)
  · exact (key "2" "1" 2 1 (by decide) (by decide)).2 (by decide)

theorem squad_get_allowed_iff_member_witness :
    ("6ba7b810" ≠ "6ba7b811" ∧ strconv.literalValue "1" = some 1 ∧
      strconv.literalValue "0" = some 0) ∧
    (mainDecision "6ba7b810" "6ba7b811"
        ⟨"model:user:" ++ "1", "service:squad:get", "model:squad:" ++ "0", []⟩ =
        some (.ret .Allowed) ↔
      ∃ m ∈ squadMemberships, m.SquadID = 0 ∧ m.UserID = 1) :=
  ⟨⟨by decide, by decide, by decide⟩,
   (squad_get_allowed_iff_member "6ba7b810" "6ba7b811" (by decide) "1" "0" 1 0 []
      (by decide) (by decide)).1⟩

/-- Counterexample to claim C7 as stated: the pattern `model:user:<.*>` does
match `model:user:7x`. -/
theorem user_pattern_matches_suffixed :
    patternMatches "model:user:<.*>" "model:user:7x" = true := by
  decide

/-- Claim C7, amended: the pattern `model:user:<.*>` compiles to the literal
text `model:user:` followed by the expression of `.*`, matched against the
whole value; it matches `model:user:7`, `model:user:` and also
`model:user:7x`, and does not match `xmodel:user:7`: the values it matches
are `model:user:` followed by any text without a newline. -/
theorem user_pattern_anchored :
    compile "model:user:<.*>" =
      some (Regex.lits "model:user:".data (.seq (.seq (.star .any) .eps) .eps)) ∧
    patternMatches "model:user:<.*>" "model:user:7" = true ∧
    patternMatches "model:user:<.*>" "model:user:" = true ∧
    patternMatches "model:user:<.*>" "model:user:7x" = true ∧
    patternMatches "model:user:<.*>" "xmodel:user:7" = false ∧
    (∀ value : String, patternMatches "model:user:<.*>" value = true ↔
      ∃ y, value.data = "model:user:".data ++ y ∧ '\n' ∉ y) :=
  ⟨compile_user, by decide, by decide, by decide, by decide, patternMatches_user⟩

/-- Claim C8: default-deny.  After `main` has loaded its policies (distinct
ids), a request for which no stored policy is satisfied, and so a request for
which neither of the two policies of `main` is satisfied, is denied with the
reason "no matching policy"; every request whose action is neither
`service:user:set` nor `service:squad:get` is denied so. -/
theorem default_deny (id1 id2 : String) (hid : id1 ≠ id2) (req : Request) :
    ∃ w, mainLoaded id1 id2 = .ok w ∧
      ((∀ p ∈ w.warden.Manager.findPolicies w.heap, ¬ Satisfied p req) →
        w.warden.IsAllowed w.heap req = .ret (.Denied "no matching policy")) ∧
      ((∀ p ∈ policies id1 id2, ¬ Satisfied p req) →
        w.warden.IsAllowed w.heap req = .ret (.Denied "no matching policy")) ∧
      (req.Action ≠ "service:user:set" → req.Action ≠ "service:squad:get" →
        w.warden.IsAllowed w.heap req = .ret (.Denied "no matching policy")) := by
  refine ⟨_, mainLoaded_eq id1 id2 hid, ?_, ?_, ?_⟩
  · intro h
    exact IsAllowed_default_deny _ _ _ h
  · intro h
    apply IsAllowed_default_deny
    intro p hp
    simp only [main_candidates, List.mem_cons, List.mem_singleton, or_self,
      List.not_mem_nil, or_false] at hp
    subst hp
    exact h _ (by simp [policies])
  · intro _ h2
    apply IsAllowed_default_deny
    intro p hp
    simp only [main_candidates, List.mem_cons, List.mem_singleton, or_self,
      List.not_mem_nil, or_false] at hp
    subst hp
    rw [squadPolicy_satisfied_iff]
    rintro ⟨⟨_, _, h⟩, _⟩
    exact h2 ((patternMatches_squad_get _).1 h)

theorem default_deny_witness :
    "6ba7b810" ≠ "6ba7b811" ∧
    ∃ w, mainLoaded "6ba7b810" "6ba7b811" = .ok w ∧
      w.warden.IsAllowed w.heap ⟨"model:user:0", "service:user:get", "model:user:0", []⟩ =
        .ret (.Denied "no matching policy") :=
  ⟨by decide,
   match default_deny "6ba7b810" "6ba7b811" (by decide)
      ⟨"model:user:0", "service:user:get", "model:user:0", []⟩ with
   | ⟨w, hw, _, _, h⟩ => ⟨w, hw, h (by decide) (by decide)⟩⟩

/-- Claim C9, evaluated on the code: after the loading loop of `main`
(distinct ids) the store has an entry under each id, and both entries are the
squad policy: the entry created in the first iteration is no longer the
policy "Only user can update their profile", because the `Create` call of the
second iteration is handed the same variable, which the loop has overwritten.
The claim expects the first entry to be unchanged. -/
theorem main_store_entries_alias (id1 id2 : String) (hid : id1 ≠ id2) :
    ∃ w, mainLoaded id1 id2 = .ok w ∧
      w.warden.Manager.Policies = [(id1, 0), (id2, 0)] ∧
      w.warden.Manager.get w.heap id1 = some (squadPolicy id2) ∧
      w.warden.Manager.get w.heap id2 = some (squadPolicy id2) ∧
      w.warden.Manager.get w.heap id1 ≠ some (userPolicy id1) ∧
      w.warden.Manager.findPolicies w.heap = [squadPolicy id2, squadPolicy id2] := by
  have hne : (id2 == id1) = false := by
    simp only [beq_eq_false_iff_ne, ne_eq]
    exact fun e => hid e.symm
  refine ⟨_, mainLoaded_eq id1 id2 hid, rfl, ?_, ?_, ?_, main_candidates id1 id2⟩
  · simp [MemoryManager.get, Heap.read, List.lookup]
  · simp [MemoryManager.get, Heap.read, List.lookup, hne]
  · simp [MemoryManager.get, Heap.read, List.lookup, squadPolicy, userPolicy]

theorem main_store_entries_alias_witness :
    "6ba7b810" ≠ "6ba7b811" ∧
    ∃ w, mainLoaded "6ba7b810" "6ba7b811" = .ok w ∧
      w.warden.Manager.Policies = [("6ba7b810", 0), ("6ba7b811", 0)] ∧
      w.warden.Manager.get w.heap "6ba7b810" = some (squadPolicy "6ba7b811") ∧
      w.warden.Manager.get w.heap "6ba7b811" = some (squadPolicy "6ba7b811") ∧
      w.warden.Manager.get w.heap "6ba7b810" ≠ some (userPolicy "6ba7b810") ∧
      w.warden.Manager.findPolicies w.heap =
        [squadPolicy "6ba7b811", squadPolicy "6ba7b811"] :=
  ⟨by decide, main_store_entries_alias "6ba7b810" "6ba7b811" (by decide)⟩
